import Mathlib

/-!
Verification of the daily portfolio report pipeline (`daily_report.py`).

The script is a linear batch program over pandas data frames.  We embed the
pipeline shallowly: price series are lists of rationals, data frames are
records of parallel lists, the mutable per-ticker dictionary is threaded
explicitly, and Python exceptions are modelled with `Except`.  Missing
numeric values (pandas `NaN` / Python `None`) are modelled with `Option`.
-/

namespace DailyReport

/-- Shallow embedding of `df['Close'].pct_change()` (line 41 of
`daily_report.py`): the resulting column has one cell per input row, the
first cell is the missing marker `NaN` (here `none`), and cell `i` (for
`i ≥ 1`) holds `(close[i] - close[i-1]) / close[i-1]`.  pandas computes
`close[i] / close[i-1] - 1`, which is the same rational number. -/
def pctChange (ps : List ℚ) : List (Option ℚ) :=
  match ps with
  | [] => []
  | _ :: _ => none :: (List.zipWith (fun prev cur => some ((cur - prev) / prev)) ps ps.tail)

/-- The derived return series of a price series: the defined (non-`NaN`)
cells of the `pct_change` column, in order.  This is the `ReturnSeries` of
the specification: one entry per consecutive pair of prices. -/
def returnSeries (ps : List ℚ) : List ℚ :=
  (pctChange ps).filterMap id

theorem zipWith_tail_get? (f : ℚ → ℚ → ℚ) :
    ∀ (ps : List ℚ) (j : ℕ) (h : j + 1 < ps.length),
      (List.zipWith f ps ps.tail).get? j =
        some (f (ps.get ⟨j, lt_trans (Nat.lt_succ_self j) h⟩) (ps.get ⟨j + 1, h⟩))
  | _ :: _ :: _, 0, _ => rfl
  | _ :: q :: rest, Nat.succ j, h => by
      simpa using zipWith_tail_get? f (q :: rest) j (by simpa using h)

theorem returnSeries_eq_zipWith (ps : List ℚ) :
    returnSeries ps = List.zipWith (fun prev cur => (cur - prev) / prev) ps ps.tail := by
  cases ps with
  | nil => rfl
  | cons p rest =>
      simp only [returnSeries, pctChange, List.filterMap_cons]
      induction rest generalizing p with
      | nil => rfl
      | cons q rest ih =>
          simp only [List.zipWith, List.tail, List.filterMap_cons, id] at *
          exact congrArg _ (ih q)

/-- C1: for every price series of length `N` the derived return series has
length `N - 1` (natural subtraction, so `0` when `N ≤ 1`); in particular a
price series of length `0` or `1` produces an empty return series — no
return entry exists for the first date, whose `pct_change` cell is `NaN`. -/
theorem returnSeries_length (ps : List ℚ) :
    (returnSeries ps).length = ps.length - 1 ∧
      (ps.length ≤ 1 → returnSeries ps = []) := by
  constructor
  · rw [returnSeries_eq_zipWith, List.length_zipWith]
    cases ps <;> simp
  · intro h
    rw [returnSeries_eq_zipWith]
    match ps, h with
    | [], _ => rfl
    | [p], _ => rfl

theorem returnSeries_length_witness : returnSeries [(100 : ℚ)] = [] :=
  (returnSeries_length [(100 : ℚ)]).2 (by decide)

/-- C6: the daily return at position `i ≥ 1` of the price series is
`(price[i] - price[i-1]) / price[i-1]` (it sits at position `i - 1` of the
return series, the first date having no return); and concretely the price
series `[100, 102, 99]` yields the returns `[1/50, -1/34]`, which agree
with `0.02` and `-0.0294` when rounded to two decimal places. -/
theorem dailyReturn_formula :
    (∀ (ps : List ℚ) (i : ℕ) (h1 : 1 ≤ i) (h2 : i < ps.length),
        (returnSeries ps).get? (i - 1) =
          some ((ps.get ⟨i, h2⟩ - ps.get ⟨i - 1, lt_trans (Nat.sub_lt (lt_of_lt_of_le one_pos h1) one_pos) h2⟩) /
            ps.get ⟨i - 1, lt_trans (Nat.sub_lt (lt_of_lt_of_le one_pos h1) one_pos) h2⟩)) ∧
      returnSeries [(100 : ℚ), 102, 99] = [1/50, -1/34] ∧
      round ((1 : ℚ)/50 * 100) = round ((2 : ℚ)/100 * 100) ∧
      round ((-1 : ℚ)/34 * 100) = round ((-294 : ℚ)/10000 * 100) := by
  refine ⟨?_, ?_, ?_, ?_⟩
  case refine_2 => rw [returnSeries_eq_zipWith]; norm_num
  case refine_3 => norm_num
  case refine_4 =>
    have e1 : round ((-1 : ℚ)/34 * 100) = -3 := by
      rw [round_eq, show ((-1 : ℚ)/34 * 100 + 1/2) = -83/34 by norm_num,
        Int.floor_eq_iff]
      norm_num
    have e2 : round ((-294 : ℚ)/10000 * 100) = -3 := by
      rw [round_eq, show ((-294 : ℚ)/10000 * 100 + 1/2) = -61/25 by norm_num,
        Int.floor_eq_iff]
      norm_num
    rw [e1, e2]
  intro ps i h1 h2
  obtain ⟨j, rfl⟩ : ∃ j, i = j + 1 := ⟨i - 1, (Nat.sub_add_cancel h1).symm⟩
  rw [returnSeries_eq_zipWith]
  have h := zipWith_tail_get? (fun prev cur => (cur - prev) / prev) ps j h2
  simpa using h

theorem dailyReturn_formula_witness :
    (returnSeries [(100 : ℚ), 102, 99]).get? 0 = some (((102 : ℚ) - 100) / 100) := by
  have h := dailyReturn_formula.1 [(100 : ℚ), 102, 99] 1 (by decide) (by decide)
  simpa using h

/-- A row of the `portfolio_stocks` dictionary after the fetch phase:
the ticker (the dictionary key, hence unique), its configured sector, and
the fetched market capitalisation (`None` on a failed or empty lookup,
modelled as `none`). -/
structure StockEntry where
  ticker : String
  sector : String
  market_cap : Option ℚ
deriving DecidableEq

/-- The sort key pandas extracts from the `market_cap_crore` column for the
non-missing rows.  The default value is never consulted: `sort_values`
masks the `NaN` rows out before sorting (`nargsort`). -/
def capVal (e : StockEntry) : ℚ :=
  e.market_cap.getD 0

def capLE (a b : StockEntry) : Prop :=
  capVal a ≤ capVal b

instance : DecidableRel capLE :=
  fun a b => inferInstanceAs (Decidable (capVal a ≤ capVal b))

instance : IsTotal StockEntry capLE :=
  ⟨fun a b => le_total (capVal a) (capVal b)⟩

instance : IsTrans StockEntry capLE :=
  ⟨fun _ _ _ => le_trans⟩

/-- Shallow embedding of
`df_portfolio.sort_values('market_cap_crore', ascending=False)` (line 94).
pandas `nargsort` separates the `NaN` rows, reverses the remaining rows,
argsorts them ascending, reverses the indexer, and appends the `NaN` row
indices in their original order (`na_position='last'`).  The ascending
kernel is modelled by the stable `List.insertionSort`: numpy's default
quicksort degenerates to a plain (stable) insertion sort on arrays of
fewer than 16 elements, which covers the four-entry portfolio this script
ever sorts. -/
def sortValues (l : List StockEntry) : List StockEntry :=
  (List.insertionSort capLE (l.filter (fun e => e.market_cap.isSome)).reverse).reverse
    ++ l.filter (fun e => e.market_cap.isNone)

/-- Comparison on market-cap cells as displayed by the ranked table: a
missing cell is below every cell. -/
def optLE : Option ℚ → Option ℚ → Prop
  | none, _ => True
  | some _, none => False
  | some a, some b => a ≤ b

theorem filter_orderedInsert_pos (p : StockEntry → Bool) (a : StockEntry)
    (hpa : p a = true) :
    ∀ m : List StockEntry, (∀ b ∈ m, p b = true → capLE a b) →
      (List.orderedInsert capLE a m).filter p = a :: m.filter p
  | [], _ => by simp [List.orderedInsert, hpa]
  | b :: m, hle => by
      by_cases hab : capLE a b
      · simp [List.orderedInsert, if_pos hab, List.filter_cons, hpa]
      · have hpb : p b = false := by
          rcases Bool.eq_false_or_eq_true (p b) with h | h
          · exact absurd (hle b (List.mem_cons_self b m) h) hab
          · exact h
        have ih := filter_orderedInsert_pos p a hpa m
          (fun c hc hpc => hle c (List.mem_cons_of_mem b hc) hpc)
        simp [List.orderedInsert, if_neg hab, List.filter_cons, hpb, ih]

theorem filter_orderedInsert_neg (p : StockEntry → Bool) (a : StockEntry)
    (hpa : p a = false) :
    ∀ m : List StockEntry,
      (List.orderedInsert capLE a m).filter p = m.filter p
  | [] => by simp [List.orderedInsert, hpa]
  | b :: m => by
      by_cases hab : capLE a b
      · simp [List.orderedInsert, if_pos hab, List.filter_cons, hpa]
      · have ih := filter_orderedInsert_neg p a hpa m
        simp [List.orderedInsert, if_neg hab, List.filter_cons, ih]

/-- Stability of the ascending kernel on a fixed market-cap class: the rows
whose cap equals `c` come out of the sort in their input order. -/
theorem filter_insertionSort_key (c : ℚ) :
    ∀ m : List StockEntry,
      (List.insertionSort capLE m).filter (fun e => e.market_cap = some c) =
        m.filter (fun e => e.market_cap = some c)
  | [] => rfl
  | a :: m => by
      have ih := filter_insertionSort_key c m
      by_cases hpa : a.market_cap = some c
      · have key : ∀ b ∈ List.insertionSort capLE m,
            (decide (b.market_cap = some c)) = true → capLE a b := by
          intro b _ hb
          have hb' : b.market_cap = some c := of_decide_eq_true hb
          simp [capLE, capVal, hpa, hb']
        simpa [List.insertionSort, List.filter_cons, hpa, ih] using
          filter_orderedInsert_pos (fun e => e.market_cap = some c) a
            (by simp [hpa]) (List.insertionSort capLE m) key
      · simpa [List.insertionSort, List.filter_cons, hpa, ih] using
          filter_orderedInsert_neg (fun e => e.market_cap = some c) a
            (by simp [hpa]) (List.insertionSort capLE m)

theorem isNone_pred_eq :
    (fun e : StockEntry => decide (e.market_cap = none)) =
      (fun e : StockEntry => e.market_cap.isNone) := by
  funext e
  cases e.market_cap <;> rfl

theorem isNone_not_isSome :
    (fun e : StockEntry => e.market_cap.isNone) =
      (fun e : StockEntry => !e.market_cap.isSome) := by
  funext e
  cases e.market_cap <;> rfl

theorem sortValues_perm (l : List StockEntry) : List.Perm (sortValues l) l := by
  have h1 : List.Perm
      ((List.insertionSort capLE (l.filter (fun e => e.market_cap.isSome)).reverse).reverse)
      (l.filter (fun e => e.market_cap.isSome)) :=
    ((List.reverse_perm _).trans (List.perm_insertionSort _ _)).trans (List.reverse_perm _)
  have h2 : List.Perm (sortValues l)
      (l.filter (fun e => e.market_cap.isSome) ++ l.filter (fun e => e.market_cap.isNone)) :=
    List.Perm.append h1 (List.Perm.refl _)
  refine h2.trans ?_
  rw [isNone_not_isSome]
  exact List.filter_append_perm _ l

theorem mem_sorted_knowns {l : List StockEntry} {a : StockEntry}
    (h : a ∈ (List.insertionSort capLE
      (l.filter (fun e => e.market_cap.isSome)).reverse).reverse) :
    a.market_cap.isSome = true := by
  have h1 : a ∈ (l.filter (fun e => e.market_cap.isSome)).reverse :=
    ((List.perm_insertionSort capLE _).mem_iff).mp (List.mem_reverse.mp h)
  exact (List.mem_filter.mp (List.mem_reverse.mp h1)).2

theorem sortValues_pairwise (l : List StockEntry) :
    (sortValues l).Pairwise (fun a b => optLE b.market_cap a.market_cap) := by
  rw [sortValues, List.pairwise_append]
  refine ⟨?_, ?_, ?_⟩
  · have hs : List.Sorted capLE
        (List.insertionSort capLE (l.filter (fun e => e.market_cap.isSome)).reverse) :=
      List.sorted_insertionSort capLE _
    have hrev :
        (List.insertionSort capLE
          (l.filter (fun e => e.market_cap.isSome)).reverse).reverse.Pairwise
          (fun a b => capLE b a) :=
      List.pairwise_reverse.mpr hs
    refine List.Pairwise.imp_of_mem ?_ hrev
    intro a b ha hb hba
    obtain ⟨x, hx⟩ := Option.isSome_iff_exists.mp (mem_sorted_knowns ha)
    obtain ⟨y, hy⟩ := Option.isSome_iff_exists.mp (mem_sorted_knowns hb)
    simpa [optLE, hx, hy, capLE, capVal] using hba
  · refine List.pairwise_of_forall_mem_list ?_
    intro a ha b hb
    have hb' : b.market_cap = none :=
      Option.isNone_iff_eq_none.mp (List.mem_filter.mp hb).2
    simp [optLE, hb']
  · intro a ha b hb
    have hb' : b.market_cap = none :=
      Option.isNone_iff_eq_none.mp (List.mem_filter.mp hb).2
    simp [optLE, hb']

theorem known_pred_absorb (c : ℚ) :
    (fun e : StockEntry => decide (e.market_cap = some c) && e.market_cap.isSome) =
      (fun e : StockEntry => decide (e.market_cap = some c)) := by
  funext e
  cases h : e.market_cap with
  | none => simp
  | some x => simp

/-- C3: the ranked market-cap table contains exactly the configured rows
(it is a permutation of the input), it is ordered descending by market cap
with the missing-cap rows placed last, and the sort is stable: for every
cap value the rows carrying that value keep their configuration order, and
so do the rows with a missing cap. -/
theorem ranked_table_correct (l : List StockEntry) :
    List.Perm (sortValues l) l ∧
      (sortValues l).Pairwise (fun a b => optLE b.market_cap a.market_cap) ∧
      (∀ c : ℚ, (sortValues l).filter (fun e => e.market_cap = some c) =
        l.filter (fun e => e.market_cap = some c)) ∧
      (sortValues l).filter (fun e => e.market_cap = none) =
        l.filter (fun e => e.market_cap = none) := by
  refine ⟨sortValues_perm l, sortValues_pairwise l, ?_, ?_⟩
  · intro c
    rw [sortValues, List.filter_append]
    have h2 : (l.filter (fun e => e.market_cap.isNone)).filter
        (fun e => e.market_cap = some c) = [] := by
      rw [List.filter_eq_nil_iff]
      intro a ha hc
      have hnone : a.market_cap = none :=
        Option.isNone_iff_eq_none.mp (List.mem_filter.mp ha).2
      have : a.market_cap = some c := of_decide_eq_true hc
      rw [hnone] at this
      exact Option.noConfusion this
    rw [h2, List.append_nil, List.filter_reverse, filter_insertionSort_key,
      List.filter_reverse, List.reverse_reverse, List.filter_filter,
      known_pred_absorb]
  · rw [sortValues, List.filter_append]
    have h1 : ((List.insertionSort capLE
        (l.filter (fun e => e.market_cap.isSome)).reverse).reverse).filter
        (fun e => e.market_cap = none) = [] := by
      rw [List.filter_eq_nil_iff]
      intro a ha hc
      have hsome := mem_sorted_knowns ha
      have : a.market_cap = none := of_decide_eq_true hc
      rw [this] at hsome
      exact Bool.noConfusion hsome
    have h2 : (l.filter (fun e => e.market_cap.isNone)).filter
        (fun e => e.market_cap = none) = l.filter (fun e => e.market_cap.isNone) := by
      rw [List.filter_eq_self]
      intro a ha
      have hnone : a.market_cap = none :=
        Option.isNone_iff_eq_none.mp (List.mem_filter.mp ha).2
      simp [hnone]
    rw [h1, List.nil_append, h2, isNone_pred_eq]

/-- Lexicographic order on sector names by code point, the order Python
uses to compare strings and pandas uses to sort `groupby` keys.  It is
stated on the underlying character lists so that it evaluates. -/
def strLE (a b : String) : Prop :=
  a.data ≤ b.data

def strLT (a b : String) : Prop :=
  a.data < b.data

instance : DecidableRel strLE :=
  fun a b => inferInstanceAs (Decidable (a.data ≤ b.data))

instance : IsTotal String strLE :=
  ⟨fun a b => le_total a.data b.data⟩

instance : IsTrans String strLE :=
  ⟨fun _ _ _ => le_trans⟩

/-- The `market_cap_crore` cell of a row: the fetched market cap divided by
`1e7` (line 93), `NaN` when the cap is missing. -/
def capCrore (e : StockEntry) : Option ℚ :=
  e.market_cap.map (fun c => c / 10000000)

/-- The group keys of `df_portfolio.groupby('sector')` (line 111): the
distinct sector names, sorted ascending (pandas `groupby` sorts its keys
by default). -/
def sectorNames (l : List StockEntry) : List String :=
  List.insertionSort strLE (l.map (fun e => e.sector)).dedup

/-- The summed `market_cap_crore` of one sector group, with pandas `sum`
semantics: `NaN` cells are skipped (`skipna=True`) and an all-`NaN` group
sums to `0.0` (`min_count=0`). -/
def sectorSum (l : List StockEntry) (s : String) : ℚ :=
  ((l.filter (fun e => e.sector = s)).filterMap capCrore).sum

/-- `sector_caps` (line 111): one `(sector, summed cap)` entry per group
key, in key order. -/
def sectorCaps (l : List StockEntry) : List (String × ℚ) :=
  (sectorNames l).map (fun s => (s, sectorSum l s))

/-- `sector_caps.sum()`: the portfolio total in crores. -/
def totalCap (l : List StockEntry) : ℚ :=
  ((sectorCaps l).map Prod.snd).sum

/-- `sector_percentage = sector_caps / sector_caps.sum() * 100` (line 112).
When the total is zero the IEEE division produces a non-finite value
(`0.0/0.0 = NaN`), pandas' missing marker, modelled as `none`. -/
def sectorPercentage (l : List StockEntry) : List (String × Option ℚ) :=
  (sectorCaps l).map (fun p =>
    (p.1, if totalCap l = 0 then none else some (p.2 / totalCap l * 100)))

/-- The labels of the sector pie chart (line 115): `sector_caps.index`. -/
def pieLabels (l : List StockEntry) : List String :=
  (sectorCaps l).map Prod.fst

/-- The rows of the sector allocation table of the e-mail body
(lines 150-154): `enumerate(sector_caps.iteritems(), 1)` paired with the
percentage looked up from `sector_percentage`. -/
def sectorTableRows (l : List StockEntry) : List (ℕ × String × ℚ × Option ℚ) :=
  (List.enumFrom 1 (sectorCaps l)).map (fun p =>
    (p.1, p.2.1, p.2.2, ((sectorPercentage l).lookup p.2.1).join))

theorem sectorNames_sorted (l : List StockEntry) :
    (sectorNames l).Pairwise strLE :=
  List.sorted_insertionSort strLE _

theorem sectorNames_nodup (l : List StockEntry) :
    (sectorNames l).Nodup :=
  (List.perm_insertionSort strLE _).symm.nodup
    (List.nodup_dedup (l.map (fun e => e.sector)))

theorem sectorCaps_fst (l : List StockEntry) :
    (sectorCaps l).map Prod.fst = sectorNames l := by
  rw [sectorCaps, List.map_map]
  exact List.map_id (sectorNames l)

/-- C10: the sector aggregate is listed in strictly ascending alphabetical
order of sector name, for every input portfolio and regardless of the
market-cap values; the pie-chart labels and the sector table rows of the
e-mail body iterate that aggregate in the same order. -/
theorem sector_aggregate_alphabetical (l : List StockEntry) :
    ((sectorCaps l).map Prod.fst).Pairwise strLT ∧
      pieLabels l = (sectorCaps l).map Prod.fst ∧
      (sectorTableRows l).map (fun r => r.2.1) = (sectorCaps l).map Prod.fst := by
  refine ⟨?_, rfl, ?_⟩
  · rw [sectorCaps_fst]
    have hand := List.Pairwise.and (sectorNames_sorted l) (sectorNames_nodup l)
    refine hand.imp ?_
    intro a b h
    exact lt_of_le_of_ne h.1 (fun hdata => h.2 (String.ext hdata))
  · have hsnd := List.enumFrom_map_snd 1 (sectorCaps l)
    calc (sectorTableRows l).map (fun r => r.2.1)
        = (List.enumFrom 1 (sectorCaps l)).map (fun p => p.2.1) := by
          rw [sectorTableRows, List.map_map]; rfl
      _ = ((List.enumFrom 1 (sectorCaps l)).map Prod.snd).map Prod.fst := by
          rw [List.map_map]; rfl
      _ = (sectorCaps l).map Prod.fst := by rw [hsnd]

/-- A run of the script in which the market-cap lookup succeeded for the
Banking ticker (cap `5e7`, i.e. `5` crore) and failed for the single
Consumer Services ticker, leaving its cap missing. -/
def c5Input : List StockEntry :=
  [⟨"ICICIBANK.NS", "Banking", some 50000000⟩,
   ⟨"ETERNAL.NS", "Consumer Services", none⟩]

/-- C5 is violated by the code: the sector all of whose tickers have a
missing market cap still contributes a row to the sector aggregate, and
its total is defaulted to `0` — pandas `groupby(...).sum()` turns an
all-`NaN` group into `0.0` instead of propagating the missing value, so
the `Consumer Services` row below carries a zero total. -/
theorem all_missing_sector_contributes_zero :
    sectorCaps c5Input = [("Banking", 5), ("Consumer Services", 0)] := by
  have hnames : sectorNames c5Input = ["Banking", "Consumer Services"] := by decide
  rw [sectorCaps, hnames]
  simp [sectorSum, capCrore, c5Input]
  norm_num

theorem filterMap_capCrore_pos {l : List StockEntry}
    (hpos : ∀ e ∈ l, ∀ c : ℚ, e.market_cap = some c → 0 < c) (s : String) :
    ∀ x ∈ (l.filter (fun e => e.sector = s)).filterMap capCrore, 0 < x := by
  intro x hx
  obtain ⟨e, he, hce⟩ := List.mem_filterMap.mp hx
  have hel : e ∈ l := (List.mem_filter.mp he).1
  obtain ⟨c, hc, hcx⟩ := Option.map_eq_some'.mp hce
  rw [← hcx]
  exact div_pos (hpos e hel c hc) (by norm_num)

theorem sectorSum_nonneg {l : List StockEntry}
    (hpos : ∀ e ∈ l, ∀ c : ℚ, e.market_cap = some c → 0 < c) (s : String) :
    0 ≤ sectorSum l s :=
  List.sum_nonneg (fun x hx => le_of_lt (filterMap_capCrore_pos hpos s x hx))

theorem totalCap_pos {l : List StockEntry}
    (hpos : ∀ e ∈ l, ∀ c : ℚ, e.market_cap = some c → 0 < c)
    {e0 : StockEntry} (he0 : e0 ∈ l) {c0 : ℚ} (hc0 : e0.market_cap = some c0) :
    0 < totalCap l := by
  have hs0 : e0.sector ∈ sectorNames l := by
    rw [sectorNames]
    exact ((List.perm_insertionSort strLE _).mem_iff).mpr
      (List.mem_dedup.mpr (List.mem_map.mpr ⟨e0, he0, rfl⟩))
  have hsum0 : 0 < sectorSum l e0.sector := by
    have hmem : c0 / 10000000 ∈
        (l.filter (fun e => e.sector = e0.sector)).filterMap capCrore :=
      List.mem_filterMap.mpr
        ⟨e0, List.mem_filter.mpr ⟨he0, by simp⟩, by rw [capCrore, hc0]; rfl⟩
    exact List.sum_pos _ (filterMap_capCrore_pos hpos e0.sector)
      (List.ne_nil_of_mem hmem)
  have hmem2 : sectorSum l e0.sector ∈ (sectorCaps l).map Prod.snd := by
    rw [sectorCaps, List.map_map]
    exact List.mem_map.mpr ⟨e0.sector, hs0, rfl⟩
  have hnn : ∀ x ∈ (sectorCaps l).map Prod.snd, 0 ≤ x := by
    intro x hx
    rw [sectorCaps, List.map_map] at hx
    obtain ⟨s, _, rfl⟩ := List.mem_map.mp hx
    exact sectorSum_nonneg hpos s
  exact lt_of_lt_of_le hsum0 (List.single_le_sum hnn _ hmem2)

theorem percent_sum_eq_100 (l : List StockEntry) (hT : totalCap l ≠ 0) :
    ((sectorPercentage l).filterMap Prod.snd).sum = 100 := by
  rw [sectorPercentage, List.filterMap_map]
  have hcomp : (Prod.snd ∘ fun p : String × ℚ =>
      (p.1, if totalCap l = 0 then none else some (p.2 / totalCap l * 100))) =
      (some ∘ fun p : String × ℚ => p.2 / totalCap l * 100) := by
    funext p
    simp [hT]
  rw [hcomp, List.filterMap_eq_map]
  have hfun : (fun p : String × ℚ => p.2 / totalCap l * 100) =
      (fun p : String × ℚ => p.2 * (100 / totalCap l)) := by
    funext p
    rw [div_mul_eq_mul_div, mul_div_assoc]
  rw [hfun, List.sum_map_mul_right, ← totalCap, mul_comm, div_mul_eq_mul_div,
    mul_div_assoc, div_self hT, mul_one]

/-- C2: whenever at least one ticker's market cap is known (market caps
being positive figures), every sector's percentage share is defined and
the shares sum to exactly 100, in particular to 100 within the 0.1
tolerance; when every market cap is missing, the aggregation is still
total — the zero-by-zero division raises nothing — and yields the
explicit pandas no-data marker `NaN` (modelled `none`) for every sector. -/
theorem sector_percentage_shares (l : List StockEntry) :
    ((∀ e ∈ l, ∀ c : ℚ, e.market_cap = some c → 0 < c) →
      (∃ e ∈ l, e.market_cap.isSome = true) →
      (∀ p ∈ sectorPercentage l, p.2.isSome = true) ∧
        |((sectorPercentage l).filterMap Prod.snd).sum - 100| ≤ 1 / 10) ∧
      ((∀ e ∈ l, e.market_cap = none) →
        ∀ p ∈ sectorPercentage l, p.2 = none) := by
  constructor
  · intro hpos hsome
    obtain ⟨e0, he0, hs0⟩ := hsome
    obtain ⟨c0, hc0⟩ := Option.isSome_iff_exists.mp hs0
    have hT : totalCap l ≠ 0 := ne_of_gt (totalCap_pos hpos he0 hc0)
    constructor
    · intro p hp
      obtain ⟨q, _, rfl⟩ := List.mem_map.mp hp
      simp [hT]
    · rw [percent_sum_eq_100 l hT]
      norm_num
  · intro hmiss p hp
    have hT : totalCap l = 0 := by
      rw [totalCap]
      apply List.sum_eq_zero
      intro x hx
      rw [sectorCaps, List.map_map] at hx
      obtain ⟨s, _, rfl⟩ := List.mem_map.mp hx
      show sectorSum l s = 0
      rw [sectorSum]
      have : (l.filter (fun e => e.sector = s)).filterMap capCrore = [] := by
        rw [List.filterMap_eq_nil_iff]
        intro e he
        rw [capCrore, hmiss e (List.mem_filter.mp he).1]
        rfl
      rw [this]
      rfl
    obtain ⟨q, _, rfl⟩ := List.mem_map.mp hp
    simp [hT]

/-- The worked example of the specification: tickers A, B in Banking with
caps 500 and 300, C in Tech with cap 200. -/
def specPortfolio : List StockEntry :=
  [⟨"A", "Banking", some 500⟩, ⟨"B", "Banking", some 300⟩,
   ⟨"C", "Tech", some 200⟩]

theorem sector_percentage_shares_witness :
    (∀ p ∈ sectorPercentage specPortfolio, p.2.isSome = true) ∧
      |((sectorPercentage specPortfolio).filterMap Prod.snd).sum - 100| ≤ 1 / 10 :=
  (sector_percentage_shares specPortfolio).1
    (by
      intro e he c hc
      fin_cases he <;> simp_all <;> (rw [← hc]; norm_num))
    ⟨⟨"A", "Banking", some 500⟩, by simp [specPortfolio], rfl⟩

/-- An abstract calendar date carrying the fields that the
`strftime('%d-%m-%Y')` format prints. -/
structure Date where
  day : ℕ
  month : ℕ
  year : ℕ
deriving DecidableEq

/-- The `date_fmt` rendering (line 38): a day-month-year text label. -/
def fmtDate (d : Date) : String :=
  toString d.day ++ "-" ++ toString d.month ++ "-" ++ toString d.year

/-- An index label of a price frame: a timestamp right after the fetch, a
formatted text label after the returns stage has rewritten the index. -/
inductive IdxVal where
  | date (d : Date)
  | txt (s : String)
deriving DecidableEq

/-- `date_fmt` applied to one index label: Python calls `idx.strftime`,
which raises `AttributeError` when the label is already a `str`. -/
def dateFmt : IdxVal → Except String IdxVal
  | IdxVal.date d => Except.ok (IdxVal.txt (fmtDate d))
  | IdxVal.txt _ => Except.error "AttributeError"

/-- A per-ticker pandas frame: row index, `Close` column, and the
`Daily Return` column once the returns stage has added it. -/
structure PriceDF where
  idx : List IdxVal
  close : List ℚ
  dailyReturn : Option (List (Option ℚ))
deriving DecidableEq

def PriceDF.isEmpty (df : PriceDF) : Bool :=
  df.idx.isEmpty

/-- `fetch_stock_data` (lines 24-32).  The yfinance call is an oracle that
may raise; there is no try/except around it, so a raised exception
propagates out of the loop.  An empty result only prints a warning — the
frame is stored either way. -/
def fetch_stock_data (hist : String → Except String PriceDF) :
    List String → Except String (List (String × PriceDF))
  | [] => Except.ok []
  | t :: ts =>
    match hist t with
    | Except.error e => Except.error e
    | Except.ok df =>
      match fetch_stock_data hist ts with
      | Except.error e => Except.error e
      | Except.ok rest => Except.ok ((t, df) :: rest)

/-- `fetch_market_caps` (lines 78-87): each lookup runs inside
try/except; a raised exception is logged and the cap recorded as `None`. -/
def fetch_market_caps (info : String → Except String (Option ℚ))
    (ts : List String) : List (String × Option ℚ) :=
  ts.map (fun t =>
    (t, match info t with
        | Except.ok c => c
        | Except.error _ => none))

/-- A provider whose history endpoint raises for every ticker. -/
def failingHist : String → Except String PriceDF :=
  fun _ => Except.error "ConnectionError"

/-- C4 as stated is false at this input: an exception raised while
fetching the price history of a ticker is not caught anywhere in
`fetch_stock_data` — it propagates and aborts the whole run. -/
theorem fetch_price_exception_propagates :
    fetch_stock_data failingHist ["ICICIBANK.NS"] = Except.error "ConnectionError" :=
  rfl

/-- C4 amended: a market-cap exception is caught — the list of caps always
has one entry per ticker and a ticker whose lookup raised keeps a missing
cap — but an exception during a price-history fetch propagates out of
`fetch_stock_data` and aborts the run. -/
theorem fetch_failure_handling (hist : String → Except String PriceDF)
    (ts : List String) :
    ((∃ t ∈ ts, ∃ e, hist t = Except.error e) →
        ∃ e, fetch_stock_data hist ts = Except.error e) ∧
      (∀ info : String → Except String (Option ℚ),
        (fetch_market_caps info ts).length = ts.length ∧
        ∀ t ∈ ts, ∀ e, info t = Except.error e →
          (t, (none : Option ℚ)) ∈ fetch_market_caps info ts) := by
  constructor
  · intro hfail
    induction ts with
    | nil => obtain ⟨t, ht, _⟩ := hfail; cases ht
    | cons t ts ih =>
        rw [fetch_stock_data]
        cases h1 : hist t with
        | error e => exact ⟨e, rfl⟩
        | ok df =>
            obtain ⟨t0, ht0, e0, he0⟩ := hfail
            rcases List.mem_cons.mp ht0 with rfl | ht0'
            · rw [h1] at he0; cases he0
            · obtain ⟨e, he⟩ := ih ⟨t0, ht0', e0, he0⟩
              rw [he]
              exact ⟨e, rfl⟩
  · intro info
    constructor
    · simp [fetch_market_caps]
    · intro t ht e he
      rw [fetch_market_caps]
      refine List.mem_map.mpr ⟨t, ht, ?_⟩
      rw [he]

theorem fetch_failure_handling_witness :
    ∃ e, fetch_stock_data failingHist ["ICICIBANK.NS"] = Except.error e :=
  (fetch_failure_handling failingHist ["ICICIBANK.NS"]).1
    ⟨"ICICIBANK.NS", List.mem_singleton.mpr rfl, "ConnectionError", rfl⟩

/-- The four chart artifacts, in the order the script writes them
(lines 74, 107, 118, 139). -/
def chartFiles : List String :=
  ["./output/heatmap.png", "./output/marketcap.png",
   "./output/sector_allocation.png", "./output/price_trends.png"]

def exceptOk {α : Type} : Except String α → Bool
  | Except.ok _ => true
  | Except.error _ => false

/-- The artifacts the straight-line rendering code actually produces: the
renderings run in turn with no handler around any of them, so the first
raised exception terminates the script and nothing after it is written. -/
def runRenderings : List (String × Except String Unit) → List String
  | [] => []
  | (name, Except.ok _) :: rest => name :: runRenderings rest
  | (_, Except.error _) :: _ => []

/-- C7 as stated is false at this input: the heatmap rendering fails (as
it does on an empty returns table) and although the other three
renderings would each succeed, none of them runs and no artifact at all
is written — the renderings are not isolated. -/
theorem rendering_failure_aborts_rest :
    runRenderings
      [("./output/heatmap.png", Except.error "zero-size array"),
       ("./output/marketcap.png", Except.ok ()),
       ("./output/sector_allocation.png", Except.ok ()),
       ("./output/price_trends.png", Except.ok ())] = [] :=
  rfl

/-- C7 amended: the four renderings write four pairwise distinct
artifacts, but they are sequential, not isolated: the artifacts written
are exactly the successful prefix before the first failing rendering,
and everything after a failure is skipped. -/
theorem renderings_distinct_but_sequential :
    chartFiles.Nodup ∧
      ∀ rs : List (String × Except String Unit),
        runRenderings rs = (rs.takeWhile (fun p => exceptOk p.2)).map Prod.fst := by
  constructor
  · decide
  · intro rs
    induction rs with
    | nil => rfl
    | cons p rest ih =>
        obtain ⟨name, r⟩ := p
        cases r with
        | ok u => simp [runRenderings, List.takeWhile_cons, exceptOk, ih]
        | error e => simp [runRenderings, List.takeWhile_cons, exceptOk]

/-- The index rewrite `df.index = [date_fmt(idx) for idx in df.index]`
(line 43 and again line 128): `date_fmt` runs on every label and any
raise aborts the comprehension. -/
def formatIndex : List IdxVal → Except String (List IdxVal)
  | [] => Except.ok []
  | i :: rest =>
    match dateFmt i with
    | Except.error e => Except.error e
    | Except.ok j =>
      match formatIndex rest with
      | Except.error e => Except.error e
      | Except.ok rest2 => Except.ok (j :: rest2)

/-- The pure shape of a formatted index label. -/
def fmtIdxPure : IdxVal → IdxVal
  | IdxVal.date d => IdxVal.txt (fmtDate d)
  | IdxVal.txt s => IdxVal.txt s

/-- What the returns stage (lines 39-44) leaves in the shared dictionary
for one non-empty frame: the same rows, a new `Daily Return` column, and
the index rewritten to day-month-year text labels. -/
def step2Frame (df : PriceDF) : PriceDF :=
  { idx := df.idx.map fmtIdxPure,
    close := df.close,
    dailyReturn := some (pctChange df.close) }

/-- The per-frame effect of the returns stage: empty frames are skipped
(`if not df.empty`, every yfinance frame having a `Close` column),
non-empty frames are mutated in place. -/
def step2One (df : PriceDF) : Except String PriceDF :=
  if df.isEmpty then Except.ok df
  else
    match formatIndex df.idx with
    | Except.error e => Except.error e
    | Except.ok newIdx =>
        Except.ok
          { idx := newIdx
            close := df.close
            dailyReturn := some (pctChange df.close) }

/-- The returns stage over the whole `stock_data` dictionary.  The frames
are Python objects mutated in place, so the updated dictionary is what
every later stage observes. -/
def step2 : List (String × PriceDF) → Except String (List (String × PriceDF))
  | [] => Except.ok []
  | (t, df) :: rest =>
    match step2One df with
    | Except.error e => Except.error e
    | Except.ok df2 =>
      match step2 rest with
      | Except.error e => Except.error e
      | Except.ok rest2 => Except.ok ((t, df2) :: rest2)

/-- The row labels of the transposed returns table (lines 39-46): one row
per ticker whose fetched frame is non-empty (the transpose, row sort and
all-`NaN` column prune change neither the row set nor its membership). -/
def returnRowTickers (m : List (String × PriceDF)) : List String :=
  (m.filter (fun p => !p.2.isEmpty)).map Prod.fst

/-- The price-trend loop (lines 124-132): empty frames are skipped,
otherwise the `Close` index is reformatted — raising on labels that are
already text — and the ticker's line is drawn; a raise stops the loop. -/
def drawnLines : List (String × PriceDF) → List String
  | [] => []
  | (t, df) :: rest =>
    if df.isEmpty then drawnLines rest
    else
      match formatIndex df.idx with
      | Except.ok _ => t :: drawnLines rest
      | Except.error _ => []

/-- The dictionary the price-trend stage iterates is the one the returns
stage just updated — the very same objects, not the original fetch
output. -/
def priceTrendInput (m : List (String × PriceDF)) :
    Except String (List (String × PriceDF)) :=
  step2 m

theorem formatIndex_dates : ∀ {idx : List IdxVal},
    (∀ i ∈ idx, ∃ d, i = IdxVal.date d) →
    formatIndex idx = Except.ok (idx.map fmtIdxPure)
  | [], _ => rfl
  | i :: rest, h => by
      obtain ⟨d, rfl⟩ := h i (List.mem_cons_self i rest)
      have ih := formatIndex_dates (fun j hj => h j (List.mem_cons_of_mem _ hj))
      rw [formatIndex]
      rw [show dateFmt (IdxVal.date d) = Except.ok (IdxVal.txt (fmtDate d)) from rfl]
      rw [ih]
      rfl

theorem step2One_empty {df : PriceDF} (he : df.isEmpty = true) :
    step2One df = Except.ok df := by
  rw [step2One, if_pos he]

theorem step2One_nonEmpty {df : PriceDF} (hne : df.isEmpty = false)
    (hdates : ∀ i ∈ df.idx, ∃ d, i = IdxVal.date d) :
    step2One df = Except.ok (step2Frame df) := by
  rw [step2One, if_neg (by simp [hne]), formatIndex_dates hdates]
  rfl

theorem step2_mem : ∀ {m m2 : List (String × PriceDF)},
    step2 m = Except.ok m2 →
    ∀ {t : String} {df : PriceDF}, (t, df) ∈ m →
    ∃ df2, step2One df = Except.ok df2 ∧ (t, df2) ∈ m2 := by
  intro m
  induction m with
  | nil => intro m2 _ t df hmem; cases hmem
  | cons p rest ih =>
      intro m2 hstep t df hmem
      obtain ⟨tp, dfp⟩ := p
      rw [step2] at hstep
      cases h1 : step2One dfp with
      | error e => rw [h1] at hstep; cases hstep
      | ok df2 =>
          rw [h1] at hstep
          cases h2 : step2 rest with
          | error e => rw [h2] at hstep; cases hstep
          | ok rest2 =>
              rw [h2] at hstep
              injection hstep with h3
              rcases List.mem_cons.mp hmem with heq | hmem2
              · rw [Prod.mk.injEq] at heq
                obtain ⟨ht, hdf⟩ := heq
                subst ht
                subst hdf
                exact ⟨df2, h1, h3 ▸ List.mem_cons_self _ _⟩
              · obtain ⟨df2', hh1, hh2⟩ := ih h2 hmem2
                exact ⟨df2', hh1, h3 ▸ List.mem_cons_of_mem _ hh2⟩

theorem step2_keys : ∀ {m m2 : List (String × PriceDF)},
    step2 m = Except.ok m2 → m2.map Prod.fst = m.map Prod.fst := by
  intro m
  induction m with
  | nil => intro m2 hstep; cases hstep; rfl
  | cons p rest ih =>
      intro m2 hstep
      obtain ⟨tp, dfp⟩ := p
      rw [step2] at hstep
      cases h1 : step2One dfp with
      | error e => rw [h1] at hstep; cases hstep
      | ok df2 =>
          rw [h1] at hstep
          cases h2 : step2 rest with
          | error e => rw [h2] at hstep; cases hstep
          | ok rest2 =>
              rw [h2] at hstep
              injection hstep with h3
              subst h3
              simp [ih h2]

theorem nodup_key_unique : ∀ {m : List (String × PriceDF)},
    (m.map Prod.fst).Nodup →
    ∀ {t : String} {a b : PriceDF}, (t, a) ∈ m → (t, b) ∈ m → a = b := by
  intro m
  induction m with
  | nil => intro _ t a b ha; cases ha
  | cons p rest ih =>
      intro hnodup t a b ha hb
      obtain ⟨tp, dfp⟩ := p
      rw [List.map_cons, List.nodup_cons] at hnodup
      rcases List.mem_cons.mp ha with heqa | ha' <;>
        rcases List.mem_cons.mp hb with heqb | hb'
      · rw [Prod.mk.injEq] at heqa heqb
        rw [heqa.2, heqb.2]
      · rw [Prod.mk.injEq] at heqa
        exact absurd (heqa.1 ▸ List.mem_map.mpr ⟨(t, b), hb', rfl⟩) hnodup.1
      · rw [Prod.mk.injEq] at heqb
        exact absurd (heqb.1 ▸ List.mem_map.mpr ⟨(t, a), ha', rfl⟩) hnodup.1
      · exact ih hnodup.2 ha' hb'

theorem mem_returnRowTickers {m : List (String × PriceDF)} {t : String}
    (h : t ∈ returnRowTickers m) :
    ∃ df, (t, df) ∈ m ∧ df.isEmpty = false := by
  obtain ⟨⟨t', df⟩, hmem, heq⟩ := List.mem_map.mp h
  obtain ⟨hin, hne⟩ := List.mem_filter.mp hmem
  refine ⟨df, ?_, ?_⟩
  · rw [show t' = t from heq] at hin
    exact hin
  · simpa using hne

theorem mem_drawnLines : ∀ {m : List (String × PriceDF)} {t : String},
    t ∈ drawnLines m → ∃ df, (t, df) ∈ m ∧ df.isEmpty = false := by
  intro m
  induction m with
  | nil => intro t h; cases h
  | cons p rest ih =>
      intro t h
      obtain ⟨tp, dfp⟩ := p
      rw [drawnLines] at h
      by_cases he : dfp.isEmpty
      · rw [if_pos he] at h
        obtain ⟨df, h1, h2⟩ := ih h
        exact ⟨df, List.mem_cons_of_mem _ h1, h2⟩
      · rw [if_neg he] at h
        cases hfi : formatIndex dfp.idx with
        | ok newIdx =>
            rw [hfi] at h
            rcases List.mem_cons.mp h with rfl | h2
            · exact ⟨dfp, List.mem_cons_self _ _, by simpa using he⟩
            · obtain ⟨df, hh1, hh2⟩ := ih h2
              exact ⟨df, List.mem_cons_of_mem _ hh1, hh2⟩
        | error e => rw [hfi] at h; cases h

/-- C8: a ticker whose fetched price series is empty still appears in the
ranked market-cap table — that table permutes the entire configured
portfolio, so in particular it appears whenever its market cap is known —
yet it contributes no row to the returns table and no line to the price
trend chart (whose loop iterates the dictionary the returns stage left
behind). -/
theorem empty_series_ticker (entries : List StockEntry)
    (m m2 : List (String × PriceDF)) (t : String) (df : PriceDF)
    (hmem : (t, df) ∈ m) (hempty : df.isEmpty = true)
    (hnodup : (m.map Prod.fst).Nodup)
    (hport : t ∈ entries.map (fun e => e.ticker))
    (hstep : step2 m = Except.ok m2) :
    t ∈ (sortValues entries).map (fun e => e.ticker) ∧
      t ∉ returnRowTickers m ∧
      t ∉ drawnLines m2 := by
  refine ⟨?_, ?_, ?_⟩
  · exact (((sortValues_perm entries).map (fun e => e.ticker)).mem_iff).mpr hport
  · intro hrow
    obtain ⟨df', hmem', hne'⟩ := mem_returnRowTickers hrow
    rw [nodup_key_unique hnodup hmem' hmem] at hne'
    rw [hempty] at hne'
    exact Bool.noConfusion hne'
  · intro hline
    obtain ⟨df', hmem', hne'⟩ := mem_drawnLines hline
    obtain ⟨df2, hs1, hs2⟩ := step2_mem hstep hmem
    rw [step2One_empty hempty] at hs1
    injection hs1 with hdf2
    subst hdf2
    have hnodup2 : (m2.map Prod.fst).Nodup := by
      rw [step2_keys hstep]
      exact hnodup
    rw [nodup_key_unique hnodup2 hmem' hs2] at hne'
    rw [hempty] at hne'
    exact Bool.noConfusion hne'

theorem empty_series_ticker_witness :
    "CDSL.NS" ∈ (sortValues [⟨"CDSL.NS", "Financial Services", some 5⟩]).map
        (fun e => e.ticker) ∧
      "CDSL.NS" ∉ returnRowTickers [("CDSL.NS", ⟨[], [], none⟩)] ∧
      "CDSL.NS" ∉ drawnLines [("CDSL.NS", ⟨[], [], none⟩)] :=
  empty_series_ticker [⟨"CDSL.NS", "Financial Services", some 5⟩]
    [("CDSL.NS", ⟨[], [], none⟩)] [("CDSL.NS", ⟨[], [], none⟩)]
    "CDSL.NS" ⟨[], [], none⟩ (List.mem_singleton.mpr rfl) rfl
    (by simp) (by simp) rfl

/-- C9: the returns stage mutates the fetched frames in place — after it
runs, the shared dictionary maps each ticker with a non-empty frame to a
frame carrying a `Daily Return` column and a day-month-year text index in
place of the timestamp index — and the price-trend stage receives exactly
this updated dictionary, not the original fetch output. -/
theorem returns_stage_mutates (m m2 : List (String × PriceDF))
    (t : String) (df : PriceDF)
    (hmem : (t, df) ∈ m) (hne : df.isEmpty = false)
    (hfresh : df.dailyReturn = none)
    (hdates : ∀ i ∈ df.idx, ∃ d, i = IdxVal.date d)
    (hstep : step2 m = Except.ok m2) :
    (t, step2Frame df) ∈ m2 ∧
      (step2Frame df).dailyReturn = some (pctChange df.close) ∧
      (∀ i ∈ (step2Frame df).idx, ∃ s, i = IdxVal.txt s) ∧
      step2Frame df ≠ df ∧
      priceTrendInput m = Except.ok m2 := by
  obtain ⟨df2, hs1, hs2⟩ := step2_mem hstep hmem
  rw [step2One_nonEmpty hne hdates] at hs1
  injection hs1 with hdf2
  subst hdf2
  refine ⟨hs2, rfl, ?_, ?_, hstep⟩
  · intro i hi
    obtain ⟨j, hj, rfl⟩ := List.mem_map.mp hi
    obtain ⟨d, rfl⟩ := hdates j hj
    exact ⟨fmtDate d, rfl⟩
  · intro hcontra
    have : (step2Frame df).dailyReturn = df.dailyReturn := by rw [hcontra]
    rw [hfresh] at this
    exact Option.noConfusion this

theorem returns_stage_mutates_witness :
    ("HDFCBANK.NS",
        step2Frame ⟨[IdxVal.date ⟨1, 2, 2026⟩], [100], none⟩) ∈
        [("HDFCBANK.NS", step2Frame ⟨[IdxVal.date ⟨1, 2, 2026⟩], [100], none⟩)] ∧
      (step2Frame ⟨[IdxVal.date ⟨1, 2, 2026⟩], [100], none⟩).dailyReturn =
        some (pctChange [100]) ∧
      (∀ i ∈ (step2Frame ⟨[IdxVal.date ⟨1, 2, 2026⟩], [100], none⟩).idx,
        ∃ s, i = IdxVal.txt s) ∧
      step2Frame ⟨[IdxVal.date ⟨1, 2, 2026⟩], [100], none⟩ ≠
        ⟨[IdxVal.date ⟨1, 2, 2026⟩], [100], none⟩ ∧
      priceTrendInput [("HDFCBANK.NS", ⟨[IdxVal.date ⟨1, 2, 2026⟩], [100], none⟩)] =
        Except.ok
          [("HDFCBANK.NS", step2Frame ⟨[IdxVal.date ⟨1, 2, 2026⟩], [100], none⟩)] :=
  returns_stage_mutates
    [("HDFCBANK.NS", ⟨[IdxVal.date ⟨1, 2, 2026⟩], [100], none⟩)]
    [("HDFCBANK.NS", step2Frame ⟨[IdxVal.date ⟨1, 2, 2026⟩], [100], none⟩)]
    "HDFCBANK.NS" ⟨[IdxVal.date ⟨1, 2, 2026⟩], [100], none⟩
    (List.mem_singleton.mpr rfl) rfl rfl
    (by
      intro i hi
      rw [List.mem_singleton] at hi
      exact ⟨⟨1, 2, 2026⟩, hi⟩)
    rfl

end DailyReport
